import Mathlib

/-!
Shallow embedding of the core of `mp3_genre_filler` (`src/genre_filler.py`).

Python strings are modelled as lists of characters (`Str`), `pathlib.Path`
objects as an absolute flag plus a list of normalised components (`PyPath`),
and the filesystem as the list of absolute component paths of the regular
files present (`FS`).  Fallible per-file tag IO is modelled as a function
into `Except`.
-/

/-- A Python string, as its list of characters. -/
abbrev Str : Type := List Char

/-- The whitespace characters recognised by Python's `str.strip()`. -/
def isPySpace (c : Char) : Bool :=
  c = ' ' || c = '\t' || c = '\n' || c = '\r' || c = '\x0b' || c = '\x0c'

/-- Python `str.replace` for single-character arguments. -/
def replaceChar (a b : Char) (s : Str) : Str :=
  s.map fun c => if c = a then b else c

/-- Python `str.split(sep)` for a single separator character; like in Python,
splitting the empty string yields `[""]`. -/
def splitChar (sep : Char) : Str → List Str
  | [] => [[]]
  | c :: cs =>
    match splitChar sep cs with
    | [] => [[]]
    | piece :: rest =>
      if c = sep then [] :: piece :: rest else (c :: piece) :: rest

/-- Python `str.strip()`: drop whitespace from both ends. -/
def pyStrip (s : Str) : Str :=
  ((s.dropWhile isPySpace).reverse.dropWhile isPySpace).reverse

/-- The pieces contributed by one raw artist string in
`_normalize_artist_entries`: replace `";"` and `"/"` by `","`, split on
`","`, strip each piece, keep the non-empty ones. -/
def normalizePieces (raw : Str) : List Str :=
  ((splitChar ',' (replaceChar '/' ',' (replaceChar ';' ',' raw))).map pyStrip).filter
    fun name => decide (name ≠ [])

/-- `src/genre_filler.py`, `_normalize_artist_entries`: split artist strings
on common separators and trim whitespace, skipping falsy (empty) inputs. -/
def normalizeArtistEntries (raws : List Str) : List Str :=
  raws.foldl (fun acc raw => if raw = [] then acc else acc ++ normalizePieces raw) []

/-- A `pathlib.Path`: an absolute flag plus the normalised components. -/
structure PyPath where
  absolute : Bool
  parts : List Str
deriving DecidableEq, Repr

/-- The `pathlib.Path(s)` constructor: absolute iff the string starts with
`"/"`; components are the `"/"`-separated pieces with empty and `"."`
pieces dropped. -/
def parsePath (s : Str) : PyPath :=
  { absolute := s.head? = some '/'
    parts := (splitChar '/' s).filter fun piece => decide (piece ≠ []) && decide (piece ≠ ['.']) }

/-- `pathlib.Path.expanduser` for a leading `"~"` component. -/
def expandUser (home : PyPath) (p : PyPath) : PyPath :=
  if p.absolute = false && p.parts.head? = some ['~'] then
    { absolute := home.absolute, parts := home.parts ++ p.parts.tail }
  else p

/-- `src/genre_filler.py`, `_normalize_entries`: convert raw user strings
into paths, skipping falsy (empty) entries. -/
def normalizeEntries (home : PyPath) (entries : List Str) : List PyPath :=
  entries.foldl
    (fun cleaned raw =>
      if raw = [] then cleaned else cleaned ++ [expandUser home (parsePath raw)]) []

/-- The filesystem: the absolute component paths of the regular files
present.  A directory exists exactly when some file lies strictly below it. -/
structure FS where
  files : List (List Str)
deriving DecidableEq, Repr

/-- `pathlib.Path.resolve`, on components: relative paths are anchored at
the current working directory. -/
def resolveParts (cwd : List Str) (p : PyPath) : List Str :=
  if p.absolute then p.parts else cwd ++ p.parts

/-- `pathlib.Path.resolve` as a path object: the resolved absolute path. -/
def resolvePath (cwd : List Str) (p : PyPath) : PyPath :=
  { absolute := true, parts := resolveParts cwd p }

/-- `Path.exists()`: the resolved path is a file, or a directory with at
least one file strictly beneath it. -/
def fsExists (fs : FS) (cwd : List Str) (p : PyPath) : Bool :=
  fs.files.any fun f =>
    decide (f = resolveParts cwd p) ||
      ((resolveParts cwd p).isPrefixOf f && decide (resolveParts cwd p ≠ f))

/-- `Path.is_file()`: the resolved path is one of the files. -/
def fsIsFile (fs : FS) (cwd : List Str) (p : PyPath) : Bool :=
  decide (resolveParts cwd p ∈ fs.files)

/-- `pathlib.Path.name`: the final component (empty when there is none). -/
def nameOf (p : PyPath) : Str := p.parts.getLastD []

/-- `pathlib.Path.suffix` of a file name: the final `"."`-extension, empty
when there is no dot or the dot is the first or last character. -/
def suffixOf (name : Str) : Str :=
  let tailAfterDot := (name.reverse.takeWhile fun c => c ≠ '.').reverse
  if tailAfterDot.length = name.length then []
  else if tailAfterDot.length = 0 then []
  else if name.length = tailAfterDot.length + 1 then []
  else '.' :: tailAfterDot

/-- Python `str.lower()`. -/
def lowerStr (s : Str) : Str := s.map Char.toLower

/-- The recognised audio extension, `".mp3"`. -/
def mp3Ext : Str := ['.', 'm', 'p', '3']

/-- `fnmatch` of the pattern `"*.mp3"` on POSIX: a case-sensitive suffix
match on the file name. -/
def matchesMp3Pattern (name : Str) : Bool := mp3Ext.isSuffixOf name

/-- `Path.rglob("*.mp3")`: every file strictly beneath the resolved path
whose final component matches the pattern, reported in the spelling of the
path the traversal started from. -/
def rglobMp3 (fs : FS) (cwd : List Str) (p : PyPath) : List PyPath :=
  (fs.files.filter fun f =>
      ((resolveParts cwd p).isPrefixOf f && decide (resolveParts cwd p ≠ f)) &&
        matchesMp3Pattern (f.getLastD [])).map
    fun f => { absolute := p.absolute, parts := p.parts ++ f.drop (resolveParts cwd p).length }

/-- `str(Path)`: components joined by `"/"`, with a leading `"/"` when
absolute. -/
def renderPath (p : PyPath) : Str :=
  (if p.absolute then ['/'] else []) ++ List.intercalate ['/'] p.parts

/-- The warning recorded for a non-existing entry. -/
def missingMsg (p : PyPath) : Str := "Missing path skipped: ".data ++ renderPath p

/-- The warning recorded for a file entry without the `.mp3` extension. -/
def notMp3Msg (p : PyPath) : Str := "Not an MP3 file skipped: ".data ++ renderPath p

/-- One guarded append of `_collect_mp3s` on the state
(targets, errors, seen): add the path only when it was not seen before. -/
def dedupStep (st : List PyPath × List Str × List PyPath) (q : PyPath) :
    List PyPath × List Str × List PyPath :=
  if q ∈ st.2.2 then st else (st.1 ++ [q], st.2.1, st.2.2 ++ [q])

/-- The body of the `for item in items` loop of `_collect_mp3s`. -/
def collectStep (fs : FS) (cwd : List Str)
    (st : List PyPath × List Str × List PyPath) (item : PyPath) :
    List PyPath × List Str × List PyPath :=
  if fsExists fs cwd item = false then
    (st.1, st.2.1 ++ [missingMsg item], st.2.2)
  else if fsIsFile fs cwd item then
    if lowerStr (suffixOf (nameOf item)) = mp3Ext then dedupStep st item
    else (st.1, st.2.1 ++ [notMp3Msg item], st.2.2)
  else
    (rglobMp3 fs cwd item).foldl dedupStep st

/-- `src/genre_filler.py`, `_collect_mp3s`: the discovered targets and the
warnings. -/
def collectMp3s (fs : FS) (cwd : List Str) (items : List PyPath) :
    List PyPath × List Str :=
  ((items.foldl (collectStep fs cwd) ([], [], [])).1,
    (items.foldl (collectStep fs cwd) ([], [], [])).2.1)

/-- `src/genre_filler.py`, `_remember_dir`: resolve the new directory, move
it to the front, drop other copies of it, keep at most two entries. -/
def rememberDir (cwd : List Str) (current : List PyPath) (newDir : PyPath) :
    List PyPath :=
  (resolvePath cwd newDir ::
    current.filter fun p => decide (p ≠ resolvePath cwd newDir)).take 2

/-- One guarded append of the selection refresh at the end of the event
loop: keep the path only when it was not seen before. -/
def selStep (st : List PyPath × List PyPath) (item : PyPath) :
    List PyPath × List PyPath :=
  if item ∈ st.2 then st else (st.1 ++ [item], st.2 ++ [item])

/-- The selection refresh at the end of each event-loop pass of `main`
(lines 305-313): first-seen deduplication by path-object equality. -/
def dedupSelection (selected : List PyPath) : List PyPath :=
  (selected.foldl selStep ([], [])).1

/-- The logical view of one file's tag container: the `genre` field, the
display `artist` field, and the `TXXX` auxiliary frames keyed by their
description. -/
structure TagRecord where
  genre : List Str
  artist : List Str
  frames : List (Str × List Str)
deriving DecidableEq, Repr

/-- The description of the auxiliary canonical-artist-list frame. -/
def artistsListKey : Str := "ARTISTS-LIST".data

/-- Whether a frame is the canonical-artist-list frame. -/
def isAuxKey (kv : Str × List Str) : Bool := decide (kv.1 = artistsListKey)

/-- `" / ".join(...)`: the joined display string of the artist names. -/
def joinArtists (names : List Str) : Str := List.intercalate " / ".data names

/-- The `TXXX` bookkeeping of `main` (lines 283-289): delete any previously
stored `ARTISTS-LIST` frame, then add the new one. -/
def storeArtistsFrame (frames : List (Str × List Str)) (atw : List Str) :
    List (Str × List Str) :=
  (if frames.any isAuxKey then frames.filter (fun kv => !isAuxKey kv) else frames) ++
    [(artistsListKey, atw)]

/-- The tag edit applied to one file by the `-RUN-` handler of `main`
(lines 265-292): set the genre when one was supplied, choose the artists to
write (the caller's list, or the normalised existing artist field), write
the display artist field according to the join mode, and replace the
canonical `ARTISTS-LIST` frame. -/
def applyTags (genre : Str) (artists : List Str) (joinMode : Bool)
    (t : TagRecord) : TagRecord :=
  let t1 := if genre = [] then t else { t with genre := [genre] }
  let atw := if artists = [] then normalizeArtistEntries t.artist else artists
  if atw = [] then t1
  else
    { t1 with
      artist := if joinMode then [joinArtists atw] else atw
      frames := storeArtistsFrame t1.frames atw }

/-- `main`, lines 248-253: the artist list derived from the artist input
field (stripped; normalised only when non-empty after stripping). -/
def artistsFromInput (fieldText : Str) : List Str :=
  if pyStrip fieldText = [] then [] else normalizeArtistEntries [pyStrip fieldText]

/-- The log line for a file whose processing raised. -/
def failedMsg (p : PyPath) (exc : Str) : Str :=
  "Failed: ".data ++ renderPath p ++ " (".data ++ exc ++ [')']

/-- The log line for a successfully updated file. -/
def updatedMsg (genre : Str) (artists : List Str) (p : PyPath) : Str :=
  "Updated: ".data ++ renderPath p ++ [' '] ++
    (if genre = [] then [] else "(genre)".data) ++
    (if artists = [] then [] else " (artist)".data)

/-- Whether a fallible step succeeded. -/
def exceptOk (e : Except Str Unit) : Bool :=
  match e with
  | Except.ok _ => true
  | Except.error _ => false

/-- The `for mp3 in mp3s` try/except loop of `main` (lines 262-302): the
tagging work on one file is a fallible step; a failure becomes a log line
and the loop moves on, a success bumps the counter. -/
def runBatchLoop (proc : PyPath → Except Str Unit) (genre : Str)
    (artists : List Str) (mp3s : List PyPath) : Nat × List Str :=
  mp3s.foldl
    (fun st mp3 =>
      match proc mp3 with
      | Except.error exc => (st.1, st.2 ++ [failedMsg mp3 exc])
      | Except.ok _ => (st.1 + 1, st.2 ++ [updatedMsg genre artists mp3]))
    (0, [])




/-! ## Theorems -/

theorem normalizeEntries_foldl (home : PyPath) (entries : List Str) :
    ∀ acc : List PyPath,
      entries.foldl
        (fun cleaned raw =>
          if raw = [] then cleaned else cleaned ++ [expandUser home (parsePath raw)]) acc =
      acc ++ (entries.filter fun r => decide (r ≠ [])).map fun r => expandUser home (parsePath r) := by
  induction entries with
  | nil => intro acc; simp
  | cons r rs ih =>
    intro acc
    by_cases h : r = [] <;>
      simp [List.foldl_cons, h, ih, List.filter_cons]

/-- C7 (amended): the Path Resolver skips exactly the empty input entries
(whitespace-only entries are kept and become path objects), expands a
leading home shorthand on each remaining entry, preserves relative input
order, and is a total function. -/
theorem c7_normalizeEntries_amended (home : PyPath) (entries : List Str) :
    normalizeEntries home entries =
      (entries.filter fun r => decide (r ≠ [])).map fun r => expandUser home (parsePath r) := by
  unfold normalizeEntries
  simpa using normalizeEntries_foldl home entries []

/-- C7 (counterexample): a whitespace-only entry is blank but is not
skipped: it survives as a path object. -/
theorem c7_blank_counterexample :
    [' '].all isPySpace = true ∧ ([' '] : Str) ≠ [] ∧
      normalizeEntries ⟨true, [['h']]⟩ [[' ']] = [⟨false, [[' ']]⟩] := by decide

/-- The log line an outcome produces for one file. -/
def outcomeMsg (proc : PyPath → Except Str Unit) (genre : Str)
    (artists : List Str) (mp3 : PyPath) : Str :=
  match proc mp3 with
  | Except.error exc => failedMsg mp3 exc
  | Except.ok _ => updatedMsg genre artists mp3

theorem runBatchLoop_foldl (proc : PyPath → Except Str Unit) (genre : Str)
    (artists : List Str) (mp3s : List PyPath) :
    ∀ (n : Nat) (msgs : List Str),
      mp3s.foldl
        (fun st mp3 =>
          match proc mp3 with
          | Except.error exc => (st.1, st.2 ++ [failedMsg mp3 exc])
          | Except.ok _ => (st.1 + 1, st.2 ++ [updatedMsg genre artists mp3]))
        (n, msgs) =
      (n + mp3s.countP (fun m => exceptOk (proc m)),
        msgs ++ mp3s.map (outcomeMsg proc genre artists)) := by
  induction mp3s with
  | nil => intro n msgs; simp
  | cons m ms ih =>
    intro n msgs
    rw [List.foldl_cons]
    cases hm : proc m with
    | error exc =>
      simp only [hm]
      rw [ih]
      simp [List.countP_cons, outcomeMsg, hm, exceptOk]
    | ok u =>
      simp only [hm]
      rw [ih]
      simp [List.countP_cons, outcomeMsg, hm, exceptOk]
      omega

/-- C3: in the batch loop every file gets exactly one outcome record, in
order — a failure of one file becomes a per-file failure message and every
later file is still attempted — and the success count is exactly the number
of files whose processing succeeded. -/
theorem c3_per_file_isolation (proc : PyPath → Except Str Unit) (genre : Str)
    (artists : List Str) (mp3s : List PyPath) :
    (runBatchLoop proc genre artists mp3s).2 = mp3s.map (outcomeMsg proc genre artists) ∧
      (runBatchLoop proc genre artists mp3s).1 =
        mp3s.countP fun m => exceptOk (proc m) := by
  unfold runBatchLoop
  rw [runBatchLoop_foldl]
  simp

theorem rememberDir_take_form (cwd : List Str) (L : List PyPath) (X : PyPath) :
    rememberDir cwd L X =
      resolvePath cwd X ::
        (L.filter fun p => decide (p ≠ resolvePath cwd X)).take 1 := by
  unfold rememberDir
  rw [List.take_succ_cons]

/-- C5: `remember` is idempotent, puts the resolved absolute directory at
the front, keeps exactly one copy of it, and never returns more than the
maximum of two entries. -/
theorem c5_rememberDir_props (cwd : List Str) (L : List PyPath) (X : PyPath) :
    rememberDir cwd (rememberDir cwd L X) X = rememberDir cwd L X ∧
      (rememberDir cwd L X).head? = some (resolvePath cwd X) ∧
      (rememberDir cwd L X).count (resolvePath cwd X) = 1 ∧
      (rememberDir cwd L X).length ≤ 2 := by
  have hmemF : resolvePath cwd X ∉ L.filter fun p => decide (p ≠ resolvePath cwd X) := by
    intro hmem
    have h := (List.mem_filter.mp hmem).2
    simp at h
  have hsub : (L.filter fun p => decide (p ≠ resolvePath cwd X)).take 1 ⊆
      L.filter fun p => decide (p ≠ resolvePath cwd X) := List.take_subset _ _
  refine ⟨?_, ?_, ?_, ?_⟩
  · rw [rememberDir_take_form cwd L X, rememberDir_take_form]
    have hfilter :
        ((resolvePath cwd X ::
            (L.filter fun p => decide (p ≠ resolvePath cwd X)).take 1).filter
          fun p => decide (p ≠ resolvePath cwd X)) =
        (L.filter fun p => decide (p ≠ resolvePath cwd X)).take 1 := by
      rw [List.filter_cons]
      have hrr : decide (resolvePath cwd X ≠ resolvePath cwd X) = false := by simp
      rw [hrr]
      simp only [Bool.false_eq_true, if_false]
      exact List.filter_eq_self.mpr fun x hx => (List.mem_filter.mp (hsub hx)).2
    rw [hfilter, List.take_take]
    simp
  · rw [rememberDir_take_form]; rfl
  · rw [rememberDir_take_form, List.count_cons_self]
    have : ((L.filter fun p => decide (p ≠ resolvePath cwd X)).take 1).count
        (resolvePath cwd X) = 0 :=
      List.count_eq_zero.mpr fun h => hmemF (hsub h)
    omega
  · rw [rememberDir_take_form]
    simp [List.length_take]

theorem dropWhile_head?_false {α : Type} (p : α → Bool) (l : List α) (c : α)
    (h : (l.dropWhile p).head? = some c) : p c = false := by
  induction l with
  | nil => simp at h
  | cons a as ih =>
    rw [List.dropWhile_cons] at h
    by_cases hpa : p a = true
    · rw [if_pos hpa] at h
      exact ih h
    · rw [if_neg hpa] at h
      simp only [List.head?_cons, Option.some.injEq] at h
      simp only [Bool.not_eq_true] at hpa
      rw [← h]
      exact hpa

theorem dropWhile_idem {α : Type} (p : α → Bool) (l : List α) :
    (l.dropWhile p).dropWhile p = l.dropWhile p := by
  cases h : l.dropWhile p with
  | nil => simp
  | cons a as =>
    have hpa : p a = false := dropWhile_head?_false p l a (by rw [h]; rfl)
    rw [List.dropWhile_cons, hpa]
    simp

theorem getLast?_dropWhile {α : Type} (p : α → Bool) (l : List α)
    (h : l.dropWhile p ≠ []) : (l.dropWhile p).getLast? = l.getLast? := by
  induction l with
  | nil => simp at h
  | cons a as ih =>
    rw [List.dropWhile_cons] at h ⊢
    by_cases hpa : p a = true
    · rw [if_pos hpa] at h ⊢
      have has : as ≠ [] := by
        intro e
        rw [e] at h
        simp at h
      rw [ih h]
      cases as with
      | nil => exact absurd rfl has
      | cons b bs => rw [List.getLast?_cons_cons]
    · rw [if_neg hpa]

theorem pyStrip_idem (s : Str) : pyStrip (pyStrip s) = pyStrip s := by
  unfold pyStrip
  by_cases hv : (s.dropWhile isPySpace).reverse.dropWhile isPySpace = []
  · rw [hv]
    simp
  · have hu_ne : s.dropWhile isPySpace ≠ [] := by
      intro e
      apply hv
      rw [e]
      simp
    obtain ⟨c, hc⟩ : ∃ c, (s.dropWhile isPySpace).head? = some c := by
      cases hu : s.dropWhile isPySpace with
      | nil => exact absurd hu hu_ne
      | cons a as => exact ⟨a, rfl⟩
    have hpc : isPySpace c = false := dropWhile_head?_false isPySpace s c hc
    have hheadv :
        ((s.dropWhile isPySpace).reverse.dropWhile isPySpace).reverse.head? = some c := by
      rw [List.head?_reverse, getLast?_dropWhile isPySpace _ hv, List.getLast?_reverse]
      exact hc
    have hkey :
        ((s.dropWhile isPySpace).reverse.dropWhile isPySpace).reverse.dropWhile isPySpace =
          ((s.dropWhile isPySpace).reverse.dropWhile isPySpace).reverse := by
      cases hvr : ((s.dropWhile isPySpace).reverse.dropWhile isPySpace).reverse with
      | nil => rfl
      | cons d ds =>
        rw [hvr] at hheadv
        simp only [List.head?_cons, Option.some.injEq] at hheadv
        rw [List.dropWhile_cons, hheadv, hpc]
        simp
    rw [hkey, List.reverse_reverse, dropWhile_idem]

theorem normalizePieces_nil : normalizePieces [] = [] := by decide

theorem normalizeArtistEntries_foldl (raws : List Str) :
    ∀ acc : List Str,
      raws.foldl (fun acc raw => if raw = [] then acc else acc ++ normalizePieces raw) acc =
        acc ++ (raws.map normalizePieces).flatten := by
  induction raws with
  | nil => intro acc; simp
  | cons r rs ih =>
    intro acc
    by_cases h : r = [] <;>
      simp [List.foldl_cons, h, ih, normalizePieces_nil]

/-- C6: the Artist Normalizer returns exactly, for each input string in
order, the non-empty stripped pieces of the comma-split of the string with
`";"` and `"/"` replaced by `","`; every output element is non-empty and
free of leading and trailing whitespace; and `"A ; B/ C,, D"` yields
`["A","B","C","D"]`. -/
theorem c6_normalizeArtists :
    (∀ raws : List Str, normalizeArtistEntries raws = (raws.map normalizePieces).flatten) ∧
      (∀ (raws : List Str) (s : Str),
        s ∈ normalizeArtistEntries raws → s ≠ [] ∧ pyStrip s = s) ∧
      normalizeArtistEntries ["A ; B/ C,, D".data] =
        ["A".data, "B".data, "C".data, "D".data] := by
  have hjoin : ∀ raws : List Str,
      normalizeArtistEntries raws = (raws.map normalizePieces).flatten := by
    intro raws
    unfold normalizeArtistEntries
    simpa using normalizeArtistEntries_foldl raws []
  refine ⟨hjoin, ?_, by decide⟩
  intro raws s hs
  rw [hjoin] at hs
  obtain ⟨piecelist, hpl, hsin⟩ := List.mem_flatten.mp hs
  obtain ⟨raw, _, hraw⟩ := List.mem_map.mp hpl
  rw [← hraw] at hsin
  unfold normalizePieces at hsin
  obtain ⟨hmem, hne⟩ := List.mem_filter.mp hsin
  obtain ⟨piece, _, hpiece⟩ := List.mem_map.mp hmem
  refine ⟨by simpa using hne, ?_⟩
  rw [← hpiece]
  exact pyStrip_idem piece

/-- C6 (witness): a concrete output element is non-empty and stripped. -/
theorem c6_normalizeArtists_witness : ("A".data : Str) ≠ [] ∧ pyStrip "A".data = "A".data :=
  c6_normalizeArtists.2.1 ["A ; B".data] "A".data (by decide)

/-- The warnings a single top-level entry is specified to contribute: one
for a missing path, one for a file entry without the recognised extension,
none otherwise (in particular none for a directory). -/
def specTopWarning (fs : FS) (cwd : List Str) (item : PyPath) : List Str :=
  if fsExists fs cwd item = false then [missingMsg item]
  else if fsIsFile fs cwd item then
    if lowerStr (suffixOf (nameOf item)) = mp3Ext then [] else [notMp3Msg item]
  else []

theorem dedupStep_errors (st : List PyPath × List Str × List PyPath) (q : PyPath) :
    (dedupStep st q).2.1 = st.2.1 := by
  unfold dedupStep
  split <;> rfl

theorem dedupFold_errors (l : List PyPath) :
    ∀ st : List PyPath × List Str × List PyPath,
      (l.foldl dedupStep st).2.1 = st.2.1 := by
  induction l with
  | nil => intro st; rfl
  | cons q qs ih => intro st; rw [List.foldl_cons, ih, dedupStep_errors]

theorem collectStep_errors (fs : FS) (cwd : List Str)
    (st : List PyPath × List Str × List PyPath) (item : PyPath) :
    (collectStep fs cwd st item).2.1 = st.2.1 ++ specTopWarning fs cwd item := by
  unfold collectStep specTopWarning
  by_cases h1 : fsExists fs cwd item = false <;>
    by_cases h2 : fsIsFile fs cwd item <;>
      by_cases h3 : lowerStr (suffixOf (nameOf item)) = mp3Ext <;>
        simp [h1, h2, h3, dedupStep_errors, dedupFold_errors]

theorem collectFold_errors (fs : FS) (cwd : List Str) (items : List PyPath) :
    ∀ st : List PyPath × List Str × List PyPath,
      (items.foldl (collectStep fs cwd) st).2.1 =
        st.2.1 ++ (items.map (specTopWarning fs cwd)).flatten := by
  induction items with
  | nil => intro st; simp
  | cons it its ih =>
    intro st
    rw [List.foldl_cons, ih, collectStep_errors]
    simp

/-- C9: the Discovery warnings are exactly the per-entry top-level warnings
in entry order — a missing path or a top-level file without the recognised
extension; directory expansion never appends a warning. -/
theorem c9_warnings_top_level (fs : FS) (cwd : List Str) (items : List PyPath) :
    (collectMp3s fs cwd items).2 = (items.map (specTopWarning fs cwd)).flatten := by
  unfold collectMp3s
  rw [collectFold_errors]
  simp

/-- Invariant of the `_collect_mp3s` state: the collected targets hold no
repeats (by path-object equality) and each one has been recorded as seen. -/
def discInv (st : List PyPath × List Str × List PyPath) : Prop :=
  st.1.Nodup ∧ ∀ q ∈ st.1, q ∈ st.2.2

theorem dedupStep_inv (st : List PyPath × List Str × List PyPath) (q : PyPath)
    (h : discInv st) : discInv (dedupStep st q) := by
  unfold dedupStep
  by_cases hq : q ∈ st.2.2
  · rw [if_pos hq]
    exact h
  · rw [if_neg hq]
    refine ⟨?_, ?_⟩
    · refine List.Nodup.append h.1 (List.nodup_singleton q) ?_
      intro a ha hb
      rw [List.mem_singleton] at hb
      subst hb
      exact hq (h.2 a ha)
    · intro x hx
      rcases List.mem_append.mp hx with hx1 | hx2
      · exact List.mem_append.mpr (Or.inl (h.2 x hx1))
      · exact List.mem_append.mpr (Or.inr hx2)

theorem dedupFold_inv (l : List PyPath) :
    ∀ st : List PyPath × List Str × List PyPath,
      discInv st → discInv (l.foldl dedupStep st) := by
  induction l with
  | nil => intro st h; exact h
  | cons q qs ih => intro st h; rw [List.foldl_cons]; exact ih _ (dedupStep_inv st q h)

theorem collectStep_inv (fs : FS) (cwd : List Str)
    (st : List PyPath × List Str × List PyPath) (item : PyPath)
    (h : discInv st) : discInv (collectStep fs cwd st item) := by
  unfold collectStep
  by_cases h1 : fsExists fs cwd item = false
  · rw [if_pos h1]
    exact ⟨h.1, h.2⟩
  · rw [if_neg h1]
    by_cases h2 : fsIsFile fs cwd item
    · rw [if_pos h2]
      by_cases h3 : lowerStr (suffixOf (nameOf item)) = mp3Ext
      · rw [if_pos h3]
        exact dedupStep_inv st item h
      · rw [if_neg h3]
        exact ⟨h.1, h.2⟩
    · rw [if_neg h2]
      exact dedupFold_inv _ st h

theorem collectFold_inv (fs : FS) (cwd : List Str) (items : List PyPath) :
    ∀ st : List PyPath × List Str × List PyPath,
      discInv st → discInv (items.foldl (collectStep fs cwd) st) := by
  induction items with
  | nil => intro st h; exact h
  | cons it its ih =>
    intro st h
    rw [List.foldl_cons]
    exact ih _ (collectStep_inv fs cwd st it h)

/-- The candidate targets one top-level entry feeds into the shared
seen-set deduplication of `_collect_mp3s`, in the order the loop produces
them: the entry itself for an accepted single file, the `rglob` results for
a directory, nothing for a skipped entry. -/
def candidateStream (fs : FS) (cwd : List Str) (item : PyPath) : List PyPath :=
  if fsExists fs cwd item = false then []
  else if fsIsFile fs cwd item then
    if lowerStr (suffixOf (nameOf item)) = mp3Ext then [item] else []
  else rglobMp3 fs cwd item

/-- First-seen deduplication by path-object equality: keep each path at its
first occurrence, drop every later equal occurrence. -/
def firstSeenDedup : List PyPath → List PyPath
  | [] => []
  | q :: qs => q :: firstSeenDedup (qs.filter fun x => decide (x ≠ q))
termination_by l => l.length
decreasing_by
  simp only [List.length_cons]
  exact Nat.lt_succ_of_le (List.length_filter_le _ _)

theorem firstSeenDedup_cons (q : PyPath) (qs : List PyPath) :
    firstSeenDedup (q :: qs) =
      q :: firstSeenDedup (qs.filter fun x => decide (x ≠ q)) := by
  rw [firstSeenDedup]

theorem dedupStep_sel (st : List PyPath × List Str × List PyPath) (q : PyPath) :
    ((dedupStep st q).1, (dedupStep st q).2.2) = selStep (st.1, st.2.2) q := by
  unfold dedupStep selStep
  by_cases hq : q ∈ st.2.2
  · rw [if_pos hq, if_pos hq]
  · rw [if_neg hq, if_neg hq]

theorem dedupFold_sel (l : List PyPath) :
    ∀ st : List PyPath × List Str × List PyPath,
      ((l.foldl dedupStep st).1, (l.foldl dedupStep st).2.2) =
        l.foldl selStep (st.1, st.2.2) := by
  induction l with
  | nil => intro st; rfl
  | cons q qs ih =>
    intro st
    rw [List.foldl_cons, List.foldl_cons, ih, dedupStep_sel]

theorem collectStep_sel (fs : FS) (cwd : List Str)
    (st : List PyPath × List Str × List PyPath) (item : PyPath) :
    ((collectStep fs cwd st item).1, (collectStep fs cwd st item).2.2) =
      (candidateStream fs cwd item).foldl selStep (st.1, st.2.2) := by
  unfold collectStep candidateStream
  by_cases h1 : fsExists fs cwd item = false
  · rw [if_pos h1, if_pos h1]
    rfl
  · rw [if_neg h1, if_neg h1]
    by_cases h2 : fsIsFile fs cwd item
    · rw [if_pos h2, if_pos h2]
      by_cases h3 : lowerStr (suffixOf (nameOf item)) = mp3Ext
      · rw [if_pos h3, if_pos h3, List.foldl_cons, List.foldl_nil]
        exact dedupStep_sel st item
      · rw [if_neg h3, if_neg h3]
        rfl
    · rw [if_neg h2, if_neg h2]
      exact dedupFold_sel _ st

theorem collectFold_sel (fs : FS) (cwd : List Str) (items : List PyPath) :
    ∀ st : List PyPath × List Str × List PyPath,
      ((items.foldl (collectStep fs cwd) st).1,
        (items.foldl (collectStep fs cwd) st).2.2) =
      ((items.map (candidateStream fs cwd)).flatten).foldl selStep (st.1, st.2.2) := by
  induction items with
  | nil => intro st; rfl
  | cons it its ih =>
    intro st
    rw [List.foldl_cons, List.map_cons, List.flatten_cons, List.foldl_append, ih,
      collectStep_sel]

theorem selFold_firstSeen (l : List PyPath) :
    ∀ acc seen : List PyPath,
      (l.foldl selStep (acc, seen)).1 =
        acc ++ firstSeenDedup (l.filter fun x => decide (x ∉ seen)) := by
  induction l with
  | nil =>
    intro acc seen
    simp [firstSeenDedup]
  | cons x xs ih =>
    intro acc seen
    rw [List.foldl_cons, List.filter_cons]
    by_cases hx : x ∈ seen
    · have hdec : decide (x ∉ seen) = false := by simp [hx]
      rw [hdec]
      simp only [Bool.false_eq_true, if_false]
      have hstep : selStep (acc, seen) x = (acc, seen) := by
        unfold selStep
        rw [if_pos hx]
      rw [hstep, ih]
    · have hdec : decide (x ∉ seen) = true := by simp [hx]
      rw [hdec]
      simp only [if_true]
      have hstep : selStep (acc, seen) x = (acc ++ [x], seen ++ [x]) := by
        unfold selStep
        rw [if_neg hx]
      rw [hstep, ih, firstSeenDedup_cons]
      have hff : ((xs.filter fun y => decide (y ∉ seen)).filter
            fun y => decide (y ≠ x)) =
          xs.filter fun y => decide (y ∉ seen ++ [x]) := by
        rw [List.filter_filter]
        apply List.filter_congr
        intro a _
        by_cases ha1 : a ∈ seen <;> by_cases ha2 : a = x <;>
          simp [ha1, ha2, List.mem_append]
      rw [hff]
      simp

/-- C1 (amended): the Discovery target list is exactly the first-seen
deduplication, by path-object equality — the normalised spelling, not the
resolved absolute path — of the candidates the entries contribute in order:
each target appears exactly once, at its first-seen position, and the list
holds no two equal path objects; the same file reached under two different
spellings may still appear twice. -/
theorem c1_targets_dedup_amended (fs : FS) (cwd : List Str) (items : List PyPath) :
    (collectMp3s fs cwd items).1 =
        firstSeenDedup ((items.map (candidateStream fs cwd)).flatten) ∧
      (collectMp3s fs cwd items).1.Nodup := by
  constructor
  · have h1 : (items.foldl (collectStep fs cwd) ([], [], [])).1 =
        (((items.map (candidateStream fs cwd)).flatten).foldl selStep ([], [])).1 := by
      have h := congrArg Prod.fst (collectFold_sel fs cwd items ([], [], []))
      simpa using h
    have hfil : ((items.map (candidateStream fs cwd)).flatten).filter
          (fun x => decide (x ∉ ([] : List PyPath))) =
        (items.map (candidateStream fs cwd)).flatten :=
      List.filter_eq_self.mpr (by intro a _; simp)
    show (items.foldl (collectStep fs cwd) ([], [], [])).1 = _
    rw [h1, selFold_firstSeen, hfil]
    simp
  · exact (collectFold_inv fs cwd items ([], [], []) ⟨List.nodup_nil, by simp⟩).1

/-- C1 (counterexample): the same file reachable directly under a relative
spelling and via an absolute directory entry appears twice in the target
list, although both spellings resolve to the same absolute path. -/
theorem c1_resolved_duplicate_counterexample :
    (collectMp3s ⟨[["home".data, "a.mp3".data]]⟩ ["home".data]
        [⟨false, ["a.mp3".data]⟩, ⟨true, ["home".data]⟩]).1 =
      [⟨false, ["a.mp3".data]⟩, ⟨true, ["home".data, "a.mp3".data]⟩] ∧
    resolveParts ["home".data] ⟨false, ["a.mp3".data]⟩ =
      resolveParts ["home".data] ⟨true, ["home".data, "a.mp3".data]⟩ ∧
    (⟨false, ["a.mp3".data]⟩ : PyPath) ≠ ⟨true, ["home".data, "a.mp3".data]⟩ := by
  decide

/-- Invariant of the selection refresh state: the kept paths hold no repeats
and each one has been recorded as seen. -/
def selInv (st : List PyPath × List PyPath) : Prop :=
  st.1.Nodup ∧ ∀ q ∈ st.1, q ∈ st.2

theorem selStep_inv (st : List PyPath × List PyPath) (q : PyPath)
    (h : selInv st) : selInv (selStep st q) := by
  unfold selStep
  by_cases hq : q ∈ st.2
  · rw [if_pos hq]
    exact h
  · rw [if_neg hq]
    refine ⟨?_, ?_⟩
    · refine List.Nodup.append h.1 (List.nodup_singleton q) ?_
      intro a ha hb
      rw [List.mem_singleton] at hb
      subst hb
      exact hq (h.2 a ha)
    · intro x hx
      rcases List.mem_append.mp hx with hx1 | hx2
      · exact List.mem_append.mpr (Or.inl (h.2 x hx1))
      · exact List.mem_append.mpr (Or.inr hx2)

theorem selFold_inv (sel : List PyPath) :
    ∀ st : List PyPath × List PyPath, selInv st → selInv (sel.foldl selStep st) := by
  induction sel with
  | nil => intro st h; exact h
  | cons q qs ih => intro st h; rw [List.foldl_cons]; exact ih _ (selStep_inv st q h)

theorem selFold_seen_mem (sel : List PyPath) :
    ∀ (st : List PyPath × List PyPath) (q : PyPath),
      q ∈ (sel.foldl selStep st).2 ↔ q ∈ st.2 ∨ q ∈ sel := by
  induction sel with
  | nil => intro st q; simp
  | cons x xs ih =>
    intro st q
    rw [List.foldl_cons, ih]
    unfold selStep
    by_cases hx : x ∈ st.2
    · rw [if_pos hx]
      constructor
      · intro h
        rcases h with h | h
        · exact Or.inl h
        · exact Or.inr (List.mem_cons.mpr (Or.inr h))
      · intro h
        rcases h with h | h
        · exact Or.inl h
        · rcases List.mem_cons.mp h with h | h
          · exact Or.inl (h ▸ hx)
          · exact Or.inr h
    · rw [if_neg hx]
      constructor
      · intro h
        rcases h with h | h
        · rcases List.mem_append.mp h with h | h
          · exact Or.inl h
          · rw [List.mem_singleton] at h
            exact Or.inr (List.mem_cons.mpr (Or.inl h))
        · exact Or.inr (List.mem_cons.mpr (Or.inr h))
      · intro h
        rcases h with h | h
        · exact Or.inl (List.mem_append.mpr (Or.inl h))
        · rcases List.mem_cons.mp h with h | h
          · exact Or.inl (List.mem_append.mpr (Or.inr (List.mem_singleton.mpr h)))
          · exact Or.inr h

/-- C8 (amended): after every refresh the Selection holds no two equal path
objects — equality is by the path object's normalised spelling, not by
resolved absolute path — and appending a path already present under the
same spelling leaves the refreshed selection unchanged. -/
theorem c8_selection_amended (sel : List PyPath) (p : PyPath) :
    (dedupSelection sel).Nodup ∧
      dedupSelection (sel ++ [p]) =
        (if p ∈ sel then dedupSelection sel else dedupSelection sel ++ [p]) := by
  refine ⟨(selFold_inv sel ([], []) ⟨List.nodup_nil, by simp⟩).1, ?_⟩
  unfold dedupSelection
  rw [List.foldl_append, List.foldl_cons, List.foldl_nil]
  have hseen : p ∈ (sel.foldl selStep ([], [])).2 ↔ p ∈ sel := by
    rw [selFold_seen_mem]
    simp
  have hstep : ∀ (st : List PyPath × List PyPath) (q : PyPath),
      selStep st q = if q ∈ st.2 then st else (st.1 ++ [q], st.2 ++ [q]) :=
    fun _ _ => rfl
  rw [hstep]
  by_cases hp : p ∈ sel
  · rw [if_pos (hseen.mpr hp), if_pos hp]
  · rw [if_neg (fun h => hp (hseen.mp h)), if_neg hp]

/-- C8 (counterexample): a relative and an absolute spelling of the same
file both survive the refresh, so a path does appear twice under equality
by normalised (resolved) absolute path. -/
theorem c8_selection_counterexample :
    dedupSelection [⟨false, ["a.mp3".data]⟩, ⟨true, ["cwd".data, "a.mp3".data]⟩] =
      [⟨false, ["a.mp3".data]⟩, ⟨true, ["cwd".data, "a.mp3".data]⟩] ∧
    resolveParts ["cwd".data] ⟨false, ["a.mp3".data]⟩ =
      resolveParts ["cwd".data] ⟨true, ["cwd".data, "a.mp3".data]⟩ ∧
    (⟨false, ["a.mp3".data]⟩ : PyPath) ≠ ⟨true, ["cwd".data, "a.mp3".data]⟩ := by
  decide

theorem dedupFold_mono (l : List PyPath) :
    ∀ (st : List PyPath × List Str × List PyPath) (q : PyPath),
      q ∈ st.1 → q ∈ (l.foldl dedupStep st).1 := by
  induction l with
  | nil => intro st q h; exact h
  | cons x xs ih =>
    intro st q h
    rw [List.foldl_cons]
    apply ih
    unfold dedupStep
    by_cases hx : x ∈ st.2.2
    · rw [if_pos hx]; exact h
    · rw [if_neg hx]; exact List.mem_append.mpr (Or.inl h)

theorem dedupFold_mem (l : List PyPath) :
    ∀ (st : List PyPath × List Str × List PyPath) (q : PyPath),
      q ∈ l → q ∈ (l.foldl dedupStep st).1 ∨ q ∈ st.2.2 := by
  induction l with
  | nil => intro st q h; simp at h
  | cons x xs ih =>
    intro st q h
    rw [List.foldl_cons]
    rcases List.mem_cons.mp h with h | h
    · subst h
      by_cases hx : q ∈ st.2.2
      · exact Or.inr hx
      · left
        apply dedupFold_mono
        unfold dedupStep
        rw [if_neg hx]
        exact List.mem_append.mpr (Or.inr (List.mem_singleton.mpr rfl))
    · rcases ih (dedupStep st x) q h with h2 | h2
      · exact Or.inl h2
      · unfold dedupStep at h2
        by_cases hx : x ∈ st.2.2
        · rw [if_pos hx] at h2
          exact Or.inr h2
        · rw [if_neg hx] at h2
          rcases List.mem_append.mp h2 with h3 | h3
          · exact Or.inr h3
          · rw [List.mem_singleton] at h3
            subst h3
            left
            apply dedupFold_mono
            unfold dedupStep
            rw [if_neg hx]
            exact List.mem_append.mpr (Or.inr (List.mem_singleton.mpr rfl))

/-- C4 (amended): directory traversal matches the extension
case-sensitively — every file beneath the directory whose name ends with
the exact lowercase suffix ".mp3" is added as a target — while the
case-insensitive check applies only to single-file entries, which are
accepted whenever the lowercased suffix is ".mp3". -/
theorem c4_extension_amended :
    (∀ (fs : FS) (cwd : List Str) (d : PyPath) (f : List Str),
        f ∈ fs.files →
        (resolveParts cwd d).isPrefixOf f = true →
        resolveParts cwd d ≠ f →
        fsIsFile fs cwd d = false →
        matchesMp3Pattern (f.getLastD []) = true →
        ({ absolute := d.absolute,
           parts := d.parts ++ f.drop (resolveParts cwd d).length } : PyPath) ∈
          (collectMp3s fs cwd [d]).1) ∧
    (∀ (fs : FS) (cwd : List Str) (p : PyPath),
        fsIsFile fs cwd p = true →
        lowerStr (suffixOf (nameOf p)) = mp3Ext →
        collectMp3s fs cwd [p] = ([p], [])) := by
  constructor
  · intro fs cwd d f hf hpre hne hnotfile hmatch
    have hex : fsExists fs cwd d = true := by
      unfold fsExists
      rw [List.any_eq_true]
      exact ⟨f, hf, by simp [hpre, hne]⟩
    unfold collectMp3s
    rw [List.foldl_cons, List.foldl_nil]
    unfold collectStep
    rw [if_neg (by simp [hex]), if_neg (by simp [hnotfile])]
    have hq : ({ absolute := d.absolute,
                 parts := d.parts ++ f.drop (resolveParts cwd d).length } : PyPath) ∈
          rglobMp3 fs cwd d := by
      unfold rglobMp3
      apply List.mem_map.mpr
      refine ⟨f, ?_, rfl⟩
      apply List.mem_filter.mpr
      exact ⟨hf, by simp [hpre, hne, ← List.getLastD_eq_getLast?, hmatch]⟩
    rcases dedupFold_mem _ _ _ hq with h | h
    · exact h
    · simp at h
  · intro fs cwd p hfile hsuffix
    have hex : fsExists fs cwd p = true := by
      unfold fsExists
      rw [List.any_eq_true]
      refine ⟨resolveParts cwd p, ?_, by simp⟩
      unfold fsIsFile at hfile
      simpa using hfile
    unfold collectMp3s
    rw [List.foldl_cons, List.foldl_nil]
    unfold collectStep
    rw [if_neg (by simp [hex]), if_pos hfile, if_pos hsuffix]
    simp [dedupStep]

/-- C4 (witness): a lowercase-suffixed file beneath a directory entry is
discovered, and a single-file entry with that suffix is accepted. -/
theorem c4_extension_witness :
    ({ absolute := true,
       parts := ["m".data] ++
         ["m".data, "x.mp3".data].drop
           (resolveParts ["c".data] ⟨true, ["m".data]⟩).length } : PyPath) ∈
      (collectMp3s ⟨[["m".data, "x.mp3".data]]⟩ ["c".data] [⟨true, ["m".data]⟩]).1 ∧
    collectMp3s ⟨[["m".data, "x.mp3".data]]⟩ ["c".data]
        [⟨true, ["m".data, "x.mp3".data]⟩] =
      ([⟨true, ["m".data, "x.mp3".data]⟩], []) :=
  ⟨c4_extension_amended.1 ⟨[["m".data, "x.mp3".data]]⟩ ["c".data] ⟨true, ["m".data]⟩
      ["m".data, "x.mp3".data] (by decide) (by decide) (by decide) (by decide) (by decide),
    c4_extension_amended.2 ⟨[["m".data, "x.mp3".data]]⟩ ["c".data]
      ⟨true, ["m".data, "x.mp3".data]⟩ (by decide) (by decide)⟩

/-- C4 (counterexample): a file with the uppercase extension ".MP3" beneath
a directory entry — a case-insensitive match for the recognised extension —
is not added as a target by directory traversal, although the very same
path is accepted when given as a single-file entry. -/
theorem c4_case_counterexample :
    lowerStr (suffixOf "B.MP3".data) = mp3Ext ∧
    collectMp3s ⟨[["music".data, "B.MP3".data]]⟩ ["cwd".data]
        [⟨true, ["music".data]⟩] = ([], []) ∧
    collectMp3s ⟨[["music".data, "B.MP3".data]]⟩ ["cwd".data]
        [⟨true, ["music".data, "B.MP3".data]⟩] =
      ([⟨true, ["music".data, "B.MP3".data]⟩], []) := by
  decide

theorem filter_isAuxKey_false (F : List (Str × List Str)) (h : F.any isAuxKey = false) :
    F.filter (fun kv => !isAuxKey kv) = F := by
  apply List.filter_eq_self.mpr
  intro kv hkv
  simp only [List.any_eq_false] at h
  simp [h kv hkv]

theorem storeArtistsFrame_any (F : List (Str × List Str)) (a : List Str) :
    (storeArtistsFrame F a).any isAuxKey = true := by
  unfold storeArtistsFrame
  rw [List.any_append]
  simp [isAuxKey]

theorem storeArtistsFrame_filter (F : List (Str × List Str)) (a : List Str) :
    (storeArtistsFrame F a).filter (fun kv => !isAuxKey kv) =
      F.filter fun kv => !isAuxKey kv := by
  unfold storeArtistsFrame
  rw [List.filter_append]
  by_cases h : F.any isAuxKey
  · rw [if_pos h, List.filter_filter]
    simp [isAuxKey]
  · rw [if_neg h]
    have h' : F.any isAuxKey = false := by simpa using h
    rw [filter_isAuxKey_false F h']
    simp [isAuxKey]

theorem storeArtistsFrame_idem (F : List (Str × List Str)) (a : List Str) :
    storeArtistsFrame (storeArtistsFrame F a) a = storeArtistsFrame F a := by
  rw [show storeArtistsFrame (storeArtistsFrame F a) a =
      (if (storeArtistsFrame F a).any isAuxKey then
        (storeArtistsFrame F a).filter (fun kv => !isAuxKey kv)
      else storeArtistsFrame F a) ++ [(artistsListKey, a)] from rfl]
  rw [if_pos (storeArtistsFrame_any F a), storeArtistsFrame_filter]
  unfold storeArtistsFrame
  by_cases h : F.any isAuxKey
  · rw [if_pos h]
  · rw [if_neg h]
    have h' : F.any isAuxKey = false := by simpa using h
    rw [filter_isAuxKey_false F h']

theorem storeArtistsFrame_countP (F : List (Str × List Str)) (a : List Str) :
    (storeArtistsFrame F a).countP isAuxKey = 1 := by
  unfold storeArtistsFrame
  rw [List.countP_append]
  have hone : List.countP isAuxKey [(artistsListKey, a)] = 1 := by simp [isAuxKey]
  by_cases h : F.any isAuxKey
  · rw [if_pos h, hone]
    have hz : (F.filter fun kv => !isAuxKey kv).countP isAuxKey = 0 := by
      rw [List.countP_eq_zero]
      intro kv hkv
      have hk := (List.mem_filter.mp hkv).2
      simp only [Bool.not_eq_eq_eq_not, Bool.not_true] at hk
      simp [hk]
    omega
  · rw [if_neg h, hone]
    have h' : F.any isAuxKey = false := by simpa using h
    have hz : F.countP isAuxKey = 0 := by
      rw [List.countP_eq_zero]
      intro kv hkv
      simp only [List.any_eq_false] at h'
      simp [h' kv hkv]
    omega

theorem applyTags_of_ne (genre : Str) (artists : List Str) (jm : Bool)
    (t : TagRecord) (h : artists ≠ []) :
    applyTags genre artists jm t =
      { genre := if genre = [] then t.genre else [genre]
        artist := if jm then [joinArtists artists] else artists
        frames := storeArtistsFrame t.frames artists } := by
  by_cases hg : genre = [] <;> simp [applyTags, h, hg]

/-- C2: applying the per-file tag edit twice with the same genre, non-empty
Artist List and join-mode equals applying it once; the canonical
ARTISTS-LIST frame occurs exactly once afterwards (replaced, never
duplicated), and the display artist field is exactly what the join-mode
dictates, with no duplicated entries beyond the caller's list. -/
theorem c2_applyTags_idempotent (genre : Str) (artists : List Str) (jm : Bool)
    (t : TagRecord) (h : artists ≠ []) :
    applyTags genre artists jm (applyTags genre artists jm t) =
        applyTags genre artists jm t ∧
      (applyTags genre artists jm t).frames.countP isAuxKey = 1 ∧
      (applyTags genre artists jm t).artist =
        (if jm then [joinArtists artists] else artists) := by
  rw [applyTags_of_ne genre artists jm t h, applyTags_of_ne genre artists jm _ h]
  refine ⟨?_, storeArtistsFrame_countP _ _, rfl⟩
  by_cases hg : genre = [] <;> simp [hg, storeArtistsFrame_idem]

/-- C2 (witness): the idempotence and frame properties at a concrete file. -/
theorem c2_applyTags_witness :
    applyTags "Pop".data ["A".data] true
        (applyTags "Pop".data ["A".data] true ⟨[], [], []⟩) =
      applyTags "Pop".data ["A".data] true ⟨[], [], []⟩ ∧
    (applyTags "Pop".data ["A".data] true ⟨[], [], []⟩).frames.countP isAuxKey = 1 ∧
    (applyTags "Pop".data ["A".data] true ⟨[], [], []⟩).artist =
      (if true then [joinArtists ["A".data]] else ["A".data]) :=
  c2_applyTags_idempotent "Pop".data ["A".data] true ⟨[], [], []⟩ (by decide)

/-- C10: caller artist text that is non-empty but normalises to an empty
Artist List behaves exactly like supplying no artist at all: the tag edit
falls back to the file's existing artist field, normalising it — the artist
field is written from the normalised existing entries when they are
non-empty, and is left untouched (not cleared) when they are empty. -/
theorem c10_fallback_existing_artists (text genre : Str) (jm : Bool)
    (t : TagRecord) (hne : text ≠ []) (hempty : artistsFromInput text = []) :
    applyTags genre (artistsFromInput text) jm t = applyTags genre [] jm t ∧
      (applyTags genre (artistsFromInput text) jm t).artist =
        (if normalizeArtistEntries t.artist = [] then t.artist
         else if jm then [joinArtists (normalizeArtistEntries t.artist)]
         else normalizeArtistEntries t.artist) := by
  rw [hempty]
  refine ⟨rfl, ?_⟩
  by_cases ha : normalizeArtistEntries t.artist = []
  · by_cases hg : genre = [] <;> simp [applyTags, ha, hg]
  · by_cases hg : genre = [] <;> by_cases hj : jm <;>
      simp [applyTags, ha, hg, hj]

/-- C10 (witness): blank-separator artist text falls back to splitting the
file's existing composite artist entry. -/
theorem c10_fallback_witness :
    applyTags [] (artistsFromInput " ; / ,".data) false ⟨[], ["A/B".data], []⟩ =
        applyTags [] [] false ⟨[], ["A/B".data], []⟩ ∧
      (applyTags [] (artistsFromInput " ; / ,".data) false ⟨[], ["A/B".data], []⟩).artist =
        (if normalizeArtistEntries (TagRecord.mk [] ["A/B".data] []).artist = [] then
          (TagRecord.mk [] ["A/B".data] []).artist
         else if false then
          [joinArtists (normalizeArtistEntries (TagRecord.mk [] ["A/B".data] []).artist)]
         else normalizeArtistEntries (TagRecord.mk [] ["A/B".data] []).artist) :=
  c10_fallback_existing_artists " ; / ,".data [] false ⟨[], ["A/B".data], []⟩
    (by decide) (by decide)
